import Mathlib

/-!
Shallow embedding of the trade-replicator core (src/core/replicator.py,
src/core/orchestrator.py, src/polling_service.py).

Modelling conventions:
* Python floats (margins, ratios) are modelled as `ℚ`; order quantities and
  position quantities are `Int` (signed net quantity, positive = long).
* Python dicts are modelled as insertion-ordered association lists; `updMap`
  is dict assignment (overwrite in place or append), `getMap` is `.get(k, d)`.
* A broker call that may raise is modelled as an `Option` input: `none` means
  the call raised.  An exception swallowed by a `try/except` around a block is
  modelled by returning the state unchanged at the corresponding branch.
* `db.orders` (the order log) is a list of `LogRec`; an `Option` field models
  presence/absence of the corresponding key in the inserted record.  Record
  ids are opaque (uuid4 in the source) and irrelevant to the logic, so they
  are fixed to "uuid".
* `config.DRY_RUN` is hard-coded `True` in src/config.py, so the replicator's
  dry-run branches are the live code paths: child equity is the stored
  `capital`, placements are simulated into the order log, and child open
  positions are reconstructed from the log.
-/

namespace TradeRep

/-- A master order as fetched from the broker, with the fields the code reads. -/
structure Order where
  order_id : String
  status : String
  instrument_token : Nat
  transaction_type : String
  product : String
  exchange : String
  tradingsymbol : String
  quantity : Int
  deriving Repr, DecidableEq

/-- An order-log record (`db.orders`).  `rtype` models the `"type"` key.
`instrument_token` / `transaction_type` are `none` when the inserted dict
lacks that key. -/
structure LogRec where
  id : String
  child_id : String
  status : String
  qty : Int
  rtype : String
  instrument_token : Option Nat
  transaction_type : Option String
  deriving Repr, DecidableEq

/-- The persisted `STRATEGY_STATE` dict of replicator.py. -/
structure StrategyState where
  active : Bool
  frozen_ratio : Option (List (String × ℚ))
  master_initial_margin : Option ℚ
  deriving Repr, DecidableEq

/-- The `{active: False, frozen_ratio: None, master_initial_margin: None}`
reset value written by the full-exit branch of `execute_exit`. -/
def clearedState : StrategyState :=
  { active := false, frozen_ratio := none, master_initial_margin := none }

/-- A child account document (`db.accounts` with `is_master = False`).
`capital` is the stored capital (= the equity used in dry-run mode);
`max_capital_usage` defaults to 0 (`child_db.get("max_capital_usage", 0)`). -/
structure ChildAcc where
  account_id : String
  capital : ℚ
  max_capital_usage : ℚ
  deriving Repr, DecidableEq

/-- Dict assignment `m[k] = v`: overwrite in place, else append. -/
def updMap {α β : Type} [DecidableEq α] (m : List (α × β)) (k : α) (v : β) :
    List (α × β) :=
  if m.any (fun p => decide (p.1 = k)) then
    m.map (fun p => if p.1 = k then (k, v) else p)
  else m ++ [(k, v)]

/-- Dict read `m.get(k, d)`. -/
def getMap {α β : Type} [DecidableEq α] (m : List (α × β)) (k : α) (d : β) : β :=
  match m.find? (fun p => decide (p.1 = k)) with
  | some p => p.2
  | none => d

/-- The aggregation key of `aggregate_orders`:
`(instrument_token, transaction_type, product, exchange, tradingsymbol)`. -/
def orderKey (o : Order) : Nat × String × String × String × String :=
  (o.instrument_token, o.transaction_type, o.product, o.exchange, o.tradingsymbol)

/-- Replace an order's quantity (the only field `aggregate_orders` mutates). -/
def setQty (o : Order) (q : Int) : Order :=
  { o with quantity := q }

/-- One step of the `aggregate_orders` loop: first occurrence of a key clones
the order; later occurrences add their quantity into the stored clone. -/
def addOrder (acc : List Order) (o : Order) : List Order :=
  if acc.any (fun a => decide (orderKey a = orderKey o)) then
    acc.map (fun a => if orderKey a = orderKey o then setQty a (a.quantity + o.quantity) else a)
  else acc ++ [o]

/-- `aggregate_orders` (replicator.py): fold the orders through the
insertion-ordered aggregation map and return its values. -/
def aggregate_orders (orders : List Order) : List Order :=
  orders.foldl addOrder []

/-- The hard-coded `LOT_SIZE = 65` of `execute_entry`. -/
def LOT_SIZE : ℚ := 65

/-- Child quantity scaling of `execute_entry`:
`child_quantity = math.floor((master_qty / 65) * ratio) * 65`. -/
def childQty (master_qty : Int) (r : ℚ) : Int :=
  ⌊((master_qty : ℚ) / LOT_SIZE) * r⌋ * 65

/-- The dry-run order-log record inserted for a child entry placement
(carries instrument_token and transaction_type). -/
def entryLogRec (cid : String) (o : Order) (cq : Int) : LogRec :=
  { id := "uuid", child_id := cid, status := "simulated", qty := cq,
    rtype := "entry", instrument_token := some o.instrument_token,
    transaction_type := some o.transaction_type }

/-- The per-child order loop of `execute_entry` (dry run): skip zero master
quantity, skip zero child quantity, otherwise insert a simulated entry. -/
def entryOrders (cid : String) (r : ℚ) : List Order → List LogRec
  | [] => []
  | o :: rest =>
    if o.quantity = 0 then entryOrders cid r rest
    else
      let cq := childQty o.quantity r
      if cq = 0 then entryOrders cid r rest
      else entryLogRec cid o cq :: entryOrders cid r rest

/-- Capital-usage cap of `execute_entry`:
`if max_cap > 0 and bal > max_cap: bal = max_cap`. -/
def capBalance (bal cap : ℚ) : ℚ :=
  if cap > 0 ∧ bal > cap then cap else bal

/-- First-leg ratio of `execute_entry`: `bal / base`, capped at 1.0 when above,
and 0 when the master base is not positive. -/
def freshRatio (bal base : ℚ) : ℚ :=
  if base > 0 then
    let r := bal / base
    if r > 1 then 1 else r
  else 0

/-- Processing of one child inside `execute_entry`.  When the strategy is
active the frozen ratio is read (`.get(child_id, 0.0)`); a `None` ratio map
would raise and the per-child handler swallows it (child skipped).  When
inactive, the fresh ratio is computed from the capped capital and written
into the ratio map; a `None` master base would raise in `master_base > 0`
and the per-child handler swallows it. -/
def entryChild (s : StrategyState) (c : ChildAcc) (orders : List Order) :
    StrategyState × List LogRec :=
  if s.active then
    match s.frozen_ratio with
    | none => (s, [])
    | some m => (s, entryOrders c.account_id (getMap m c.account_id 0) orders)
  else
    match s.master_initial_margin with
    | none => (s, [])
    | some base =>
      let bal := capBalance c.capital c.max_capital_usage
      let r := freshRatio bal base
      let m := s.frozen_ratio.getD []
      ({ s with frozen_ratio := some (updMap m c.account_id r) },
        entryOrders c.account_id r orders)

/-- The master baseline recorded on the first leg: the orchestrator's
pre-trade snapshot when truthy and positive, else the fallback live fetch
(0 when that fetch itself fails, matching the initialised local). -/
def entryBase (pre : Option ℚ) (fallbackFetch : ℚ) : ℚ :=
  match pre with
  | some p => if p > 0 then p else fallbackFetch
  | none => fallbackFetch

/-- One iteration of the child loop of `execute_entry`: thread the strategy
state and accumulate the inserted log records. -/
def entryStep (orders : List Order) (acc : StrategyState × List LogRec)
    (c : ChildAcc) : StrategyState × List LogRec :=
  let pr := entryChild acc.1 c orders
  (pr.1, acc.2 ++ pr.2)

/-- `execute_entry` (replicator.py): aggregate the orders, record the master
baseline when inactive, return early if there are no children, process each
child in order, and finally set `active` if it was not already set.
Returns the new strategy state and the list of inserted log records. -/
def execute_entry (s : StrategyState) (pre : Option ℚ) (fallbackFetch : ℚ)
    (children : List ChildAcc) (orders0 : List Order) :
    StrategyState × List LogRec :=
  let orders := aggregate_orders orders0
  let s1 := if s.active then s
    else { s with master_initial_margin := some (entryBase pre fallbackFetch) }
  if children = [] then (s1, [])
  else
    let res := children.foldl (entryStep orders) (s1, ([] : List LogRec))
    if res.1.active then res
    else ({ res.1 with active := true }, res.2)

/-- A child exit placement (the arguments of the simulated/real order). -/
structure PlacedExit where
  instrument_token : Nat
  transaction_type : String
  qty : Int
  deriving Repr, DecidableEq

/-- The per-child order loop of `execute_exit`: look up the child's open
quantity, skip when zero, clamp the ratio to 1.0, take
`floor(abs(open) * ratio)`, skip when zero, cap at `abs(open)`, place,
and decrement the in-loop position map. -/
def processExitOrders (r : ℚ) : List Order → List (Nat × Int) → List PlacedExit
  | [], _ => []
  | o :: rest, pm =>
    let q := getMap pm o.instrument_token 0
    if q = 0 then processExitOrders r rest pm
    else
      let rc := min r 1
      let e := ⌊(|q| : ℚ) * rc⌋
      if e = 0 then processExitOrders r rest pm
      else
        let ec := if e > |q| then |q| else e
        let nq : Int := if q > 0 then max 0 (q - ec) else -(|q| - ec)
        { instrument_token := o.instrument_token,
          transaction_type := o.transaction_type, qty := ec }
          :: processExitOrders r rest (updMap pm o.instrument_token nq)

/-- The dry-run order-log record inserted for a child exit placement:
only `id`, `child_id`, `status`, `qty`, `type` (no instrument_token and no
transaction_type). -/
def exitLogRec (cid : String) (cq : Int) : LogRec :=
  { id := "uuid", child_id := cid, status := "simulated", qty := cq,
    rtype := "exit", instrument_token := none, transaction_type := none }

/-- One record of the dry-run position reconstruction of `execute_exit`:
skip a record lacking `instrument_token` or `transaction_type`; BUY adds the
quantity, SELL subtracts it. -/
def posStep (pm : List (Nat × Int)) (o : LogRec) : List (Nat × Int) :=
  match o.instrument_token, o.transaction_type with
  | some tok, some tt =>
    if tt = "BUY" then updMap pm tok (getMap pm tok 0 + o.qty)
    else if tt = "SELL" then updMap pm tok (getMap pm tok 0 - o.qty)
    else pm
  | _, _ => pm

/-- Dry-run position reconstruction of `execute_exit`: fold the child's log
records through `posStep`. -/
def buildPosMap : List LogRec → List (Nat × Int) → List (Nat × Int)
  | [], pm => pm
  | o :: rest, pm => buildPosMap rest (posStep pm o)

/-- The open-position map `execute_exit` computes for one child in dry-run
mode: filter the order log by `child_id` and fold. -/
def childPosMap (log : List LogRec) (cid : String) : List (Nat × Int) :=
  buildPosMap (log.filter (fun o => decide (o.child_id = cid))) []

/-- One child's pass through `execute_exit` (dry run): reconstruct the open
positions, process the (already aggregated) orders, and insert one simulated
exit record per placement. -/
def exitChild (log : List LogRec) (cid : String) (r : ℚ) (orders : List Order) :
    List LogRec :=
  (processExitOrders r orders (childPosMap log cid)).map (fun p => exitLogRec cid p.qty)

/-- One iteration of the child loop of `execute_exit`: append the child's
inserted records to the order log (later children see them). -/
def exitStep (r : ℚ) (orders : List Order) (acc : List LogRec) (c : ChildAcc) :
    List LogRec :=
  acc ++ exitChild acc c.account_id r orders

/-- `execute_exit` (replicator.py): aggregate the orders, process every child
(each child sees the log as grown so far), then, when `exit_ratio ≥ 0.99`,
reset the strategy state.  Returns the new strategy state and the full
updated order log. -/
def execute_exit (s : StrategyState) (log : List LogRec) (children : List ChildAcc)
    (r : ℚ) (orders0 : List Order) : StrategyState × List LogRec :=
  let orders := aggregate_orders orders0
  let log1 := children.foldl (exitStep r orders) log
  if r ≥ 0.99 then (clearedState, log1) else (s, log1)

/-- The orchestrator's volatile fields (orchestrator.py `__init__`). -/
structure OrchState where
  last_margin : ℚ
  master_capital : ℚ
  active_trades : List (String × (ℚ × ℚ))
  instrument_map : List (Nat × ℚ)
  initialized : Bool
  deriving Repr, DecidableEq

/-- The state a tick can observe and mutate: orchestrator locals, the
strategy store, and the order log. -/
structure World where
  orch : OrchState
  strategy : StrategyState
  log : List LogRec
  deriving Repr, DecidableEq

/-- The broker-dependent inputs of one tick.  `margins = none` models the
master margins fetch raising (or, on the cold path, `initialize` raising);
`positions = none` models `kite.positions()` raising inside
`_master_is_flat`; `fallbackFetch` is the result of the replicator's
fallback master-balance fetch. -/
structure TickInput where
  margins : Option (ℚ × ℚ × ℚ)
  positions : Option (List (Nat × Int))
  fallbackFetch : ℚ
  new_orders : List Order
  deriving Repr, DecidableEq

/-- `live_balance = opening_balance + collateral - used_margin`. -/
def liveBalance (m : ℚ × ℚ × ℚ) : ℚ := m.1 + m.2.1 - m.2.2

/-- `_master_is_flat`: all net position quantities are zero; a raise in the
positions fetch is caught there and reported as `False`. -/
def masterIsFlat (ps : Option (List (Nat × Int))) : Bool :=
  match ps with
  | none => false
  | some l => l.all (fun p => decide (p.2 = 0))

/-- The entry branch of `process_tick` (`margin_delta ≥ 500`): update the
instrument map (delta split equally over the new orders), record the active
trades, call `execute_entry` with the pre-trade snapshot `last_margin`, and
commit the margin baseline.  A zero `master_capital` makes the allocation
division raise; the tick-level handler catches it with nothing yet mutated. -/
def entryTick (w : World) (children : List ChildAcc) (inp : TickInput)
    (lb delta : ℚ) : World :=
  if w.orch.master_capital = 0 then w
  else
    let alloc := delta / w.orch.master_capital
    let split := delta / (inp.new_orders.length : ℚ)
    let imap := inp.new_orders.foldl
      (fun mm o => updMap mm o.instrument_token (getMap mm o.instrument_token 0 + split))
      w.orch.instrument_map
    let trades := inp.new_orders.foldl
      (fun t o => updMap t o.order_id (delta, alloc)) w.orch.active_trades
    let pr := execute_entry w.strategy (some w.orch.last_margin) inp.fallbackFetch
      children inp.new_orders
    { orch :=
        { w.orch with
            instrument_map := imap, active_trades := trades, last_margin := lb },
      strategy := pr.1,
      log := w.log ++ pr.2 }

/-- The exit branch of `process_tick` (`margin_delta < 0`): when the master
is flat, force a 100% exit on the new orders, clear the instrument map and
commit the baseline; otherwise derive the exit ratio from the released
margin over the tracked margin of the (truthy) tokens of the new orders,
decrement the map proportionally, and call `execute_exit` (100% when no
tracked margin is found). -/
def exitTick (w : World) (children : List ChildAcc) (inp : TickInput)
    (lb delta : ℚ) : World :=
  let released := |delta|
  if masterIsFlat inp.positions then
    let pr := execute_exit w.strategy w.log children 1 inp.new_orders
    { orch := { w.orch with instrument_map := [], last_margin := lb },
      strategy := pr.1, log := pr.2 }
  else
    let relevant := (inp.new_orders.map (fun o => o.instrument_token)).filter
      (fun t => decide (t ≠ 0))
    let total := (relevant.map (fun t => getMap w.orch.instrument_map t 0)).sum
    if total > 0 then
      let r0 := released / total
      let r := if r0 > 1 then 1 else r0
      let imap := relevant.foldl
        (fun mm t =>
          let wt := getMap mm t 0 / total
          updMap mm t (max 0 (getMap mm t 0 - released * wt)))
        w.orch.instrument_map
      let pr := execute_exit w.strategy w.log children r inp.new_orders
      { orch := { w.orch with instrument_map := imap, last_margin := lb },
        strategy := pr.1, log := pr.2 }
    else
      let pr := execute_exit w.strategy w.log children 1 inp.new_orders
      { orch := { w.orch with last_margin := lb }, strategy := pr.1, log := pr.2 }

/-- `MarginOrchestrator.process_tick`: cold ticks initialise the baseline and
return (a raise there propagates with nothing mutated); a raise of the
margins fetch is caught by the tick handler with nothing mutated; an empty
new-orders list only commits the margin baseline; otherwise the sign of
`last_margin - live_balance` selects the entry branch (with the < 500 noise
filter) or the exit branch; a zero delta only commits the baseline. -/
def process_tick (w : World) (children : List ChildAcc) (inp : TickInput) : World :=
  if w.orch.initialized = false then
    match inp.margins with
    | none => w
    | some m =>
      let lb := liveBalance m
      { w with
          orch :=
            { w.orch with
                last_margin := lb, master_capital := lb, initialized := true } }
  else
    match inp.margins with
    | none => w
    | some m =>
      let lb := liveBalance m
      if inp.new_orders = [] then
        { w with orch := { w.orch with last_margin := lb } }
      else
        let delta := w.orch.last_margin - lb
        if delta > 0 then
          if delta < 500 then { w with orch := { w.orch with last_margin := lb } }
          else entryTick w children inp lb delta
        else if delta < 0 then
          exitTick w children inp lb delta
        else
          { w with orch := { w.orch with last_margin := lb } }

/-- One step of the poller's new-order detection loop (polling_service.py):
keep COMPLETE orders whose id is not yet in the seen set, appending the id
to the set and the order to the batch. -/
def detectStep (acc : List String × List Order) (o : Order) :
    List String × List Order :=
  if o.status = "COMPLETE" then
    if o.order_id ∈ acc.1 then acc
    else (acc.1 ++ [o.order_id], acc.2 ++ [o])
  else acc

/-- The new-order detection of `start_polling`: fold the fetched order list
over the seen-set, returning the grown seen-set and the batch handed to
`process_tick`. -/
def detectNew (seen : List String) (orders : List Order) :
    List String × List Order :=
  orders.foldl detectStep (seen, [])

/-! ### Concrete sample data for witnesses and counterexamples -/

/-- A sample child account. -/
def childA : ChildAcc :=
  { account_id := "CHILD_A", capital := 370000, max_capital_usage := 0 }

/-- A second child account, absent from `sActive`'s frozen-ratio map. -/
def childB : ChildAcc :=
  { account_id := "CHILD_B", capital := 500000, max_capital_usage := 0 }

/-- A sample master exit order (SELL 100 of instrument 1). -/
def ordExit : Order :=
  { order_id := "X1", status := "COMPLETE", instrument_token := 1,
    transaction_type := "SELL", product := "NRML", exchange := "NFO",
    tradingsymbol := "NIFTY25JAN", quantity := 100 }

/-- A sample master entry fill (BUY 300 of instrument 2). -/
def ordA : Order :=
  { order_id := "E1", status := "COMPLETE", instrument_token := 2,
    transaction_type := "BUY", product := "NRML", exchange := "NFO",
    tradingsymbol := "NIFTY25JAN", quantity := 300 }

/-- A second fill of the same logical entry as `ordA` (same aggregation key,
different broker order id). -/
def ordB : Order :=
  { ordA with order_id := "E2", quantity := 350 }

/-- An order that is not yet COMPLETE. -/
def ordOpen : Order :=
  { ordA with order_id := "E3", status := "OPEN" }

/-- An active strategy state with one frozen child ratio. -/
def sActive : StrategyState :=
  { active := true, frozen_ratio := some [("CHILD_A", 1/2)],
    master_initial_margin := some 3700000 }

/-- An initialised orchestrator world with an active strategy, a flat
instrument map and an empty order log. -/
def wBase : World :=
  { orch :=
      { last_margin := 1000, master_capital := 1000, active_trades := [],
        instrument_map := [], initialized := true },
    strategy := sActive, log := [] }

/-- Tick input of the C1 counterexample: margins fine, broker reports the
master flat, and the tick carries no new orders. -/
def inpEmptyFlat : TickInput :=
  { margins := some (1000, 0, 0), positions := some [], fallbackFetch := 0,
    new_orders := [] }

/-- Tick input with a new order, a released-margin delta and a flat master. -/
def inpExitFlat : TickInput :=
  { margins := some (2000, 0, 0), positions := some [(1, 0)], fallbackFetch := 0,
    new_orders := [ordExit] }

/-- Tick input of the C8 counterexample: margins fine, a new order with a
released-margin delta, and the broker positions call raising. -/
def inpPosRaise : TickInput :=
  { margins := some (2000, 0, 0), positions := none, fallbackFetch := 0,
    new_orders := [ordExit] }

/-- Tick input whose master margins fetch raises. -/
def inpMarginRaise : TickInput :=
  { margins := none, positions := some [(1, 0)], fallbackFetch := 0,
    new_orders := [ordExit] }

/-! ### Helper lemmas -/

theorem setQty_self (o : Order) : setQty o o.quantity = o := rfl

theorem orderKey_setQty (o : Order) (q : Int) : orderKey (setQty o q) = orderKey o := rfl

theorem setQty_setQty (o : Order) (q q2 : Int) : setQty (setQty o q) q2 = setQty o q2 := rfl

theorem updMap_mem_self {α β : Type} [DecidableEq α] (m : List (α × β)) (k : α) (v : β) :
    (k, v) ∈ updMap m k v := by
  unfold updMap
  by_cases hc : m.any (fun p => decide (p.1 = k))
  · rw [if_pos hc]
    rcases List.any_eq_true.mp hc with ⟨p, hp, hpk⟩
    simp only [decide_eq_true_eq] at hpk
    exact List.mem_map.mpr ⟨p, hp, by simp [hpk]⟩
  · rw [if_neg hc]
    simp

theorem updMap_keyMem {α β : Type} [DecidableEq α] (m : List (α × β)) (k k2 : α) (v2 : β)
    (h : ∃ v, (k, v) ∈ m) : ∃ v, (k, v) ∈ updMap m k2 v2 := by
  obtain ⟨v, hv⟩ := h
  unfold updMap
  by_cases hc : m.any (fun p => decide (p.1 = k2))
  · rw [if_pos hc]
    by_cases hk : k = k2
    · exact ⟨v2, List.mem_map.mpr ⟨(k, v), hv, by simp [hk]⟩⟩
    · exact ⟨v, List.mem_map.mpr ⟨(k, v), hv, by simp [hk]⟩⟩
  · rw [if_neg hc]
    exact ⟨v, List.mem_append.mpr (Or.inl hv)⟩

theorem updMap_val_mem {α β : Type} [DecidableEq α] (m : List (α × β)) (k : α) (v : β)
    (p : α × β) (hp : p ∈ updMap m k v) : p ∈ m ∨ p.2 = v := by
  unfold updMap at hp
  by_cases hc : m.any (fun q => decide (q.1 = k))
  · rw [if_pos hc] at hp
    rcases List.mem_map.mp hp with ⟨q, hq, hfq⟩
    by_cases hqk : q.1 = k
    · right
      rw [if_pos hqk] at hfq
      rw [← hfq]
    · left
      rw [if_neg hqk] at hfq
      rw [← hfq]; exact hq
  · rw [if_neg hc] at hp
    rcases List.mem_append.mp hp with h1 | h1
    · exact Or.inl h1
    · right
      rw [List.mem_singleton.mp h1]

theorem capBalance_nonneg (bal cap : ℚ) (hb : 0 ≤ bal) : 0 ≤ capBalance bal cap := by
  unfold capBalance
  by_cases h : cap > 0 ∧ bal > cap
  · rw [if_pos h]; exact le_of_lt h.1
  · rw [if_neg h]; exact hb

theorem freshRatio_nonneg (bal base : ℚ) (hb : 0 ≤ bal) : 0 ≤ freshRatio bal base := by
  unfold freshRatio
  by_cases h : base > 0
  · rw [if_pos h]
    by_cases h2 : bal / base > 1
    · simp [h2]
    · simpa [h2] using div_nonneg hb h.le
  · simp [h]

theorem freshRatio_le_one (bal base : ℚ) : freshRatio bal base ≤ 1 := by
  unfold freshRatio
  by_cases h : base > 0
  · rw [if_pos h]
    by_cases h2 : bal / base > 1
    · simp [h2]
    · simpa [h2] using le_of_not_lt h2
  · simp [h]

theorem entryChild_active (s : StrategyState) (c : ChildAcc) (orders : List Order)
    (h : s.active = true) : (entryChild s c orders).1 = s := by
  unfold entryChild
  rw [h]
  simp only [if_true]
  cases s.frozen_ratio <;> rfl

theorem entryFold_active (orders : List Order) (children : List ChildAcc) :
    ∀ (s : StrategyState) (l : List LogRec), s.active = true →
      (children.foldl (entryStep orders) (s, l)).1 = s := by
  induction children with
  | nil => intro s l _; rfl
  | cons c cs ih =>
    intro s l h
    simp only [List.foldl_cons]
    have h1 : (entryChild s c orders).1 = s := entryChild_active s c orders h
    have h2 := ih (entryChild s c orders).1 (l ++ (entryChild s c orders).2)
      (by rw [h1]; exact h)
    exact h2.trans h1

theorem execute_entry_active (s : StrategyState) (pre : Option ℚ) (fb : ℚ)
    (children : List ChildAcc) (orders0 : List Order) (h : s.active = true) :
    (execute_entry s pre fb children orders0).1 = s := by
  unfold execute_entry
  rw [h]
  simp only [if_true]
  by_cases hch : children = []
  · rw [if_pos hch]
  · rw [if_neg hch]
    have hf := entryFold_active (aggregate_orders orders0) children s [] h
    simp only [hf, h, if_true]

theorem execute_exit_partial (s : StrategyState) (log : List LogRec)
    (children : List ChildAcc) (r : ℚ) (orders0 : List Order) (hr : r < 0.99) :
    (execute_exit s log children r orders0).1 = s := by
  unfold execute_exit
  rw [if_neg (not_le.mpr hr)]

theorem execute_exit_full (s : StrategyState) (log : List LogRec)
    (children : List ChildAcc) (r : ℚ) (orders0 : List Order) (hr : (0.99 : ℚ) ≤ r) :
    (execute_exit s log children r orders0).1 = clearedState := by
  unfold execute_exit
  rw [if_pos hr]

theorem setQty_quantity (o : Order) (q : Int) : (setQty o q).quantity = q := rfl

theorem foldl_addOrder_samekey (o0 : Order) :
    ∀ (os : List Order) (q : Int), (∀ o ∈ os, orderKey o = orderKey o0) →
      os.foldl addOrder [setQty o0 q] =
        [setQty o0 (q + (os.map Order.quantity).sum)] := by
  intro os
  induction os with
  | nil => intro q _; simp
  | cons o rest ih =>
    intro q h
    have hk : orderKey o = orderKey o0 := h o (List.mem_cons_self o rest)
    have hstep : addOrder [setQty o0 q] o = [setQty o0 (q + o.quantity)] := by
      unfold addOrder
      have hany : ([setQty o0 q].any (fun a => decide (orderKey a = orderKey o))) = true := by
        simp [orderKey_setQty, hk]
      rw [if_pos hany]
      simp [orderKey_setQty, hk, setQty_setQty, setQty_quantity]
    simp only [List.foldl_cons, hstep]
    rw [ih (q + o.quantity) (fun x hx => h x (List.mem_cons_of_mem o hx))]
    simp [add_assoc]

theorem aggregate_samekey (o0 : Order) (os : List Order)
    (hkey : ∀ o ∈ os, orderKey o = orderKey o0) :
    aggregate_orders (o0 :: os) =
      [setQty o0 (o0.quantity + (os.map Order.quantity).sum)] := by
  unfold aggregate_orders
  simp only [List.foldl_cons]
  have h0 : addOrder [] o0 = [setQty o0 o0.quantity] := by
    unfold addOrder; simp [setQty_self]
  rw [h0, foldl_addOrder_samekey o0 os o0.quantity hkey]

theorem aggregate_singleton (o : Order) : aggregate_orders [o] = [o] := by
  unfold aggregate_orders addOrder
  simp

theorem execute_entry_congr_orders (s : StrategyState) (pre : Option ℚ) (fb : ℚ)
    (children : List ChildAcc) (a b : List Order)
    (h : aggregate_orders a = aggregate_orders b) :
    execute_entry s pre fb children a = execute_entry s pre fb children b := by
  unfold execute_entry
  rw [h]

theorem buildPosMap_append (l1 l2 : List LogRec) :
    ∀ pm, buildPosMap (l1 ++ l2) pm = buildPosMap l2 (buildPosMap l1 pm) := by
  induction l1 with
  | nil => intro pm; rfl
  | cons o rest ih =>
    intro pm
    simp only [List.cons_append, buildPosMap]
    exact ih _

theorem posStep_none (pm : List (Nat × Int)) (o : LogRec)
    (ho : o.instrument_token = none) : posStep pm o = pm := by
  unfold posStep
  rw [ho]

theorem buildPosMap_skips :
    ∀ (l : List LogRec), (∀ o ∈ l, o.instrument_token = none) →
      ∀ pm, buildPosMap l pm = pm := by
  intro l
  induction l with
  | nil => intro _ pm; rfl
  | cons o rest ih =>
    intro hl pm
    have ho : o.instrument_token = none := hl o (List.mem_cons_self o rest)
    simp only [buildPosMap, posStep_none pm o ho]
    exact ih (fun x hx => hl x (List.mem_cons_of_mem o hx)) pm

theorem exitChild_recs (log : List LogRec) (cid : String) (r : ℚ) (orders : List Order) :
    ∀ rec ∈ exitChild log cid r orders,
      rec.instrument_token = none ∧ rec.transaction_type = none ∧
      rec.status = "simulated" ∧ rec.rtype = "exit" ∧ rec.child_id = cid := by
  intro rec hrec
  rcases List.mem_map.mp hrec with ⟨p, _, hf⟩
  rw [← hf]
  exact ⟨rfl, rfl, rfl, rfl, rfl⟩

theorem exit_fold_recs (r : ℚ) (orders : List Order) (children : List ChildAcc) :
    ∀ log, ∃ rs,
      children.foldl (exitStep r orders) log = log ++ rs ∧
      ∀ rec ∈ rs, rec.instrument_token = none ∧ rec.transaction_type = none ∧
        rec.status = "simulated" ∧ rec.rtype = "exit" := by
  induction children with
  | nil =>
    intro log
    exact ⟨[], by simp, by simp⟩
  | cons c cs ih =>
    intro log
    simp only [List.foldl_cons]
    obtain ⟨rs1, h1, h2⟩ := ih (log ++ exitChild log c.account_id r orders)
    refine ⟨exitChild log c.account_id r orders ++ rs1, ?_, ?_⟩
    · have hst : exitStep r orders log c = log ++ exitChild log c.account_id r orders := rfl
      rw [hst, h1, List.append_assoc]
    · intro rec hrec
      rcases List.mem_append.mp hrec with h3 | h3
      · have h4 := exitChild_recs log c.account_id r orders rec h3
        exact ⟨h4.1, h4.2.1, h4.2.2.1, h4.2.2.2.1⟩
      · exact h2 rec h3

theorem childPosMap_append_none (log rs : List LogRec) (cid : String)
    (h : ∀ rec ∈ rs, rec.instrument_token = none) :
    childPosMap (log ++ rs) cid = childPosMap log cid := by
  unfold childPosMap
  rw [List.filter_append, buildPosMap_append]
  exact buildPosMap_skips _ (fun o ho => h o (List.mem_of_mem_filter ho)) _

theorem childQty_zero (q : Int) : childQty q 0 = 0 := by
  unfold childQty
  rw [mul_zero, Int.floor_zero, zero_mul]

theorem entryOrders_zero (cid : String) :
    ∀ orders, entryOrders cid (0 : ℚ) orders = [] := by
  intro orders
  induction orders with
  | nil => rfl
  | cons o rest ih =>
    unfold entryOrders
    by_cases h : o.quantity = 0
    · rw [if_pos h]; exact ih
    · rw [if_neg h]
      rw [if_pos (childQty_zero o.quantity)]
      exact ih

theorem entryChild_inactive_none (s : StrategyState) (c : ChildAcc) (orders : List Order)
    (h : s.active = false) (hm : s.master_initial_margin = none) :
    entryChild s c orders = (s, []) := by
  unfold entryChild
  rw [h, hm]
  simp

theorem entryChild_inactive_some (s : StrategyState) (c : ChildAcc) (orders : List Order)
    (base : ℚ) (h : s.active = false) (hm : s.master_initial_margin = some base) :
    entryChild s c orders =
      ({ s with frozen_ratio := some (updMap (s.frozen_ratio.getD []) c.account_id (freshRatio (capBalance c.capital c.max_capital_usage) base)) },
        entryOrders c.account_id (freshRatio (capBalance c.capital c.max_capital_usage) base) orders) := by
  unfold entryChild
  rw [h, hm]
  simp

theorem entry_fold_inactive (orders : List Order) (children : List ChildAcc) :
    ∀ (s : StrategyState) (l : List LogRec),
      s.active = false →
      (∀ m, s.frozen_ratio = some m → ∀ p ∈ m, 0 ≤ p.2 ∧ p.2 ≤ 1) →
      (∀ c ∈ children, 0 ≤ c.capital) →
      (children.foldl (entryStep orders) (s, l)).1.active = false ∧
      (children.foldl (entryStep orders) (s, l)).1.master_initial_margin
        = s.master_initial_margin ∧
      (∀ m, (children.foldl (entryStep orders) (s, l)).1.frozen_ratio = some m →
        ∀ p ∈ m, 0 ≤ p.2 ∧ p.2 ≤ 1) ∧
      (∀ k, (∃ m0 v0, s.frozen_ratio = some m0 ∧ (k, v0) ∈ m0) →
        ∃ m v, (children.foldl (entryStep orders) (s, l)).1.frozen_ratio = some m ∧
          (k, v) ∈ m) ∧
      (∀ c ∈ children, s.master_initial_margin ≠ none →
        ∃ m v, (children.foldl (entryStep orders) (s, l)).1.frozen_ratio = some m ∧
          (c.account_id, v) ∈ m) := by
  induction children with
  | nil =>
    intro s l hact hinv _
    refine ⟨hact, rfl, hinv, ?_, ?_⟩
    · rintro k ⟨m0, v0, hm0, hv0⟩
      exact ⟨m0, v0, hm0, hv0⟩
    · intro c hc
      cases hc
  | cons c cs ih =>
    intro s l hact hinv hcap
    simp only [List.foldl_cons]
    cases hmim : s.master_initial_margin with
    | none =>
      have hstep : entryStep orders (s, l) c = (s, l ++ []) := by
        show ((entryChild s c orders).1, l ++ (entryChild s c orders).2) = (s, l ++ [])
        rw [entryChild_inactive_none s c orders hact hmim]
      rw [hstep]
      obtain ⟨h1, h2, h3, h4, h5⟩ := ih s (l ++ []) hact hinv
        (fun x hx => hcap x (List.mem_cons_of_mem c hx))
      refine ⟨h1, h2.trans hmim, h3, h4, ?_⟩
      intro x hx hne
      exact absurd rfl hne
    | some base =>
      have hvnn : 0 ≤ freshRatio (capBalance c.capital c.max_capital_usage) base :=
        freshRatio_nonneg _ _
          (capBalance_nonneg _ _ (hcap c (List.mem_cons_self c cs)))
      have hvle : freshRatio (capBalance c.capital c.max_capital_usage) base ≤ 1 :=
        freshRatio_le_one _ _
      have hstep : entryStep orders (s, l) c =
          ({ s with frozen_ratio := some (updMap (s.frozen_ratio.getD []) c.account_id (freshRatio (capBalance c.capital c.max_capital_usage) base)) },
            l ++ entryOrders c.account_id (freshRatio (capBalance c.capital c.max_capital_usage) base) orders) := by
        show ((entryChild s c orders).1, l ++ (entryChild s c orders).2) = _
        rw [entryChild_inactive_some s c orders base hact hmim]
      rw [hstep]
      have hinvM : ∀ m, ({ s with frozen_ratio := some (updMap (s.frozen_ratio.getD []) c.account_id (freshRatio (capBalance c.capital c.max_capital_usage) base)) } : StrategyState).frozen_ratio = some m → ∀ p ∈ m, 0 ≤ p.2 ∧ p.2 ≤ 1 := by
        intro m hm p hp
        have hmM : updMap (s.frozen_ratio.getD []) c.account_id (freshRatio (capBalance c.capital c.max_capital_usage) base) = m := by
          simpa using hm
        rw [← hmM] at hp
        rcases updMap_val_mem _ _ _ p hp with h6 | h6
        · cases hfr : s.frozen_ratio with
          | none => rw [hfr] at h6; cases h6
          | some m0 =>
            rw [hfr] at h6
            exact hinv m0 hfr p h6
        · rw [h6]
          exact ⟨hvnn, hvle⟩
      obtain ⟨h1, h2, h3, h4, h5⟩ := ih ({ s with frozen_ratio := some (updMap (s.frozen_ratio.getD []) c.account_id (freshRatio (capBalance c.capital c.max_capital_usage) base)) }) (l ++ entryOrders c.account_id (freshRatio (capBalance c.capital c.max_capital_usage) base) orders) hact hinvM (fun x hx => hcap x (List.mem_cons_of_mem c hx))
      refine ⟨h1, h2.trans hmim, h3, ?_, ?_⟩
      · rintro k ⟨m0, v0, hm0, hv0⟩
        have hgetD : s.frozen_ratio.getD [] = m0 := by rw [hm0]; rfl
        obtain ⟨v1, hv1⟩ := updMap_keyMem m0 k c.account_id
          (freshRatio (capBalance c.capital c.max_capital_usage) base) ⟨v0, hv0⟩
        apply h4
        refine ⟨updMap (s.frozen_ratio.getD []) c.account_id (freshRatio (capBalance c.capital c.max_capital_usage) base), v1, rfl, ?_⟩
        rw [hgetD]
        exact hv1
      · intro x hx _
        rcases List.mem_cons.mp hx with h6 | h6
        · rw [h6]
          exact h4 c.account_id ⟨_, _, rfl, updMap_mem_self _ _ _⟩
        · refine h5 x h6 ?_
          show s.master_initial_margin ≠ none
          rw [hmim]
          simp

theorem detect_seen_subset (orders : List Order) :
    ∀ (acc : List String × List Order) (x : String), x ∈ acc.1 →
      x ∈ (orders.foldl detectStep acc).1 := by
  induction orders with
  | nil => intro acc x hx; exact hx
  | cons o rest ih =>
    intro acc x hx
    simp only [List.foldl_cons]
    apply ih
    unfold detectStep
    by_cases h1 : o.status = "COMPLETE"
    · rw [if_pos h1]
      by_cases h2 : o.order_id ∈ acc.1
      · rw [if_pos h2]; exact hx
      · rw [if_neg h2]; exact List.mem_append.mpr (Or.inl hx)
    · rw [if_neg h1]; exact hx

theorem detect_new_mem (orders : List Order) :
    ∀ (acc : List String × List Order) (o : Order),
      o ∈ (orders.foldl detectStep acc).2 →
      o ∈ acc.2 ∨ (o.status = "COMPLETE" ∧ o.order_id ∉ acc.1) := by
  induction orders with
  | nil => intro acc o h; exact Or.inl h
  | cons x rest ih =>
    intro acc o h
    simp only [List.foldl_cons] at h
    rcases ih (detectStep acc x) o h with h1 | h1
    · unfold detectStep at h1
      by_cases hs : x.status = "COMPLETE"
      · rw [if_pos hs] at h1
        by_cases hm : x.order_id ∈ acc.1
        · rw [if_pos hm] at h1; exact Or.inl h1
        · rw [if_neg hm] at h1
          rcases List.mem_append.mp h1 with h2 | h2
          · exact Or.inl h2
          · rw [List.mem_singleton.mp h2]
            exact Or.inr ⟨hs, hm⟩
      · rw [if_neg hs] at h1; exact Or.inl h1
    · refine Or.inr ⟨h1.1, fun hmem => h1.2 ?_⟩
      unfold detectStep
      by_cases hs : x.status = "COMPLETE"
      · rw [if_pos hs]
        by_cases hm : x.order_id ∈ acc.1
        · rw [if_pos hm]; exact hmem
        · rw [if_neg hm]; exact List.mem_append.mpr (Or.inl hmem)
      · rw [if_neg hs]; exact hmem

theorem detect_complete_in_seen (orders : List Order) :
    ∀ (acc : List String × List Order) (o : Order), o ∈ orders →
      o.status = "COMPLETE" → o.order_id ∈ (orders.foldl detectStep acc).1 := by
  induction orders with
  | nil => intro acc o h; cases h
  | cons x rest ih =>
    intro acc o ho hc
    simp only [List.foldl_cons]
    rcases List.mem_cons.mp ho with h1 | h1
    · subst h1
      apply detect_seen_subset
      unfold detectStep
      rw [if_pos hc]
      by_cases hm : o.order_id ∈ acc.1
      · rw [if_pos hm]; exact hm
      · rw [if_neg hm]
        exact List.mem_append.mpr (Or.inr (List.mem_singleton.mpr rfl))
    · exact ih (detectStep acc x) o h1 hc

theorem detect_replay_empty (orders : List Order) :
    ∀ (acc : List String × List Order),
      (∀ o ∈ orders, o.status = "COMPLETE" → o.order_id ∈ acc.1) →
      (orders.foldl detectStep acc).2 = acc.2 := by
  induction orders with
  | nil => intro acc _; rfl
  | cons x rest ih =>
    intro acc h
    simp only [List.foldl_cons]
    have hx : detectStep acc x = acc := by
      unfold detectStep
      by_cases hs : x.status = "COMPLETE"
      · rw [if_pos hs, if_pos (h x (List.mem_cons_self x rest) hs)]
      · rw [if_neg hs]
    rw [hx]
    exact ih acc (fun o ho => h o (List.mem_cons_of_mem x ho))

/-! ### Claim theorems -/

/-- C2: the spec requires `executeExit` to never mutate the Strategy State
Store, but the source clears it (active, frozen_ratio, master_initial_margin)
whenever `exit_ratio ≥ 0.99`: evaluated at the failing input (an active state,
`execute_exit(exit_ratio=1.0, orders=[])`), the store comes back cleared. -/
theorem C2_exit_mutates_strategy_state :
    sActive.active = true ∧
    (execute_exit sActive [] [childA] 1 []).1 = clearedState ∧
    (execute_exit sActive [] [childA] 1 []).1 ≠ sActive := by
  refine ⟨rfl, execute_exit_full sActive [] [childA] 1 [] (by norm_num), ?_⟩
  rw [execute_exit_full sActive [] [childA] 1 [] (by norm_num)]
  decide

/-- C3 counterexample: the claim says every exit with ratio ≥ 0.99 places
exactly `|q|`; at ratio 0.99 with an open quantity of 100 the code places
`floor(100 * 0.99) = 99 ≠ |100|`. -/
theorem C3_counterexample :
    (0.99 : ℚ) ≥ 0.99 ∧
    processExitOrders 0.99 [ordExit] [(1, 100)] =
      [{ instrument_token := 1, transaction_type := "SELL", qty := 99 }] ∧
    (99 : Int) ≠ |(100 : Int)| := by
  refine ⟨le_refl _, ?_, by decide⟩
  norm_num [processExitOrders, getMap, updMap, ordExit]

/-- C3 (amended): only for exit ratio ≥ 1.0 (ratios above 1 are clamped to 1)
is the full sweep placed: the exit loop on `o :: rest` against position map
`pm` skips the target when the child's observed open quantity
`getMap pm o.instrument_token 0` is zero, and otherwise places an order of
exactly the absolute value of that observed open quantity — no lot rounding —
and zeroes the in-loop map entry before processing the remaining targets. -/
theorem C3_full_sweep_ratio_ge_one (r : ℚ) (hr : 1 ≤ r) (o : Order)
    (rest : List Order) (pm : List (Nat × Int)) :
    processExitOrders r (o :: rest) pm =
      if getMap pm o.instrument_token 0 = 0 then processExitOrders r rest pm
      else { instrument_token := o.instrument_token, transaction_type := o.transaction_type, qty := |getMap pm o.instrument_token 0| } ::
        processExitOrders r rest (updMap pm o.instrument_token 0) := by
  by_cases hq : getMap pm o.instrument_token 0 = 0
  · rw [if_pos hq]
    simp only [processExitOrders]
    rw [if_pos hq]
  · rw [if_neg hq]
    simp only [processExitOrders]
    rw [if_neg hq]
    have hrc : min r 1 = 1 := min_eq_right hr
    rw [hrc, mul_one, ← Int.cast_abs, Int.floor_intCast]
    rw [if_neg (fun h => hq (abs_eq_zero.mp h))]
    rw [if_neg (lt_irrefl _)]
    have hnq : (if getMap pm o.instrument_token 0 > 0 then
        max 0 (getMap pm o.instrument_token 0 - |getMap pm o.instrument_token 0|)
      else -(|getMap pm o.instrument_token 0| - |getMap pm o.instrument_token 0|)) = 0 := by
      by_cases hpos : getMap pm o.instrument_token 0 > 0
      · rw [if_pos hpos, abs_of_pos hpos]
        simp
      · rw [if_neg hpos]
        simp
    rw [hnq]

/-- Witness for C3 at ratio 1 with observed open quantity 100: the step
equation holds and the call places exactly 100. -/
theorem C3_witness :
    (1 : ℚ) ≤ 1 ∧
    processExitOrders 1 [ordExit] [(1, 100)] =
      (if getMap [((1 : Nat), (100 : Int))] ordExit.instrument_token 0 = 0 then
        processExitOrders 1 [] [(1, 100)]
      else { instrument_token := ordExit.instrument_token, transaction_type := ordExit.transaction_type, qty := |getMap [((1 : Nat), (100 : Int))] ordExit.instrument_token 0| } ::
        processExitOrders 1 [] (updMap [((1 : Nat), (100 : Int))] ordExit.instrument_token 0)) ∧
    processExitOrders 1 [ordExit] [(1, 100)] =
      [{ instrument_token := 1, transaction_type := "SELL", qty := 100 }] := by
  refine ⟨le_rfl, ?_, ?_⟩
  · exact C3_full_sweep_ratio_ge_one 1 le_rfl ordExit [] [(1, 100)]
  · norm_num [processExitOrders, getMap, updMap, ordExit]

/-- C4 counterexample: the claim says a partial exit places
`floor(|q| * r / lotSize) * lotSize`; at ratio 1/2 with open quantity 100 the
code places `floor(100 * 1/2) = 50`, which is not a multiple of the lot size
65 and differs from the claimed `floor(100 * (1/2) / 65) * 65 = 0`. -/
theorem C4_counterexample :
    ((1 : ℚ)/2) < 0.99 ∧
    processExitOrders ((1 : ℚ)/2) [ordExit] [(1, 100)] =
      [{ instrument_token := 1, transaction_type := "SELL", qty := 50 }] ∧
    ¬ ((65 : Int) ∣ 50) ∧
    (50 : Int) ≠ ⌊(100 : ℚ) * ((1 : ℚ)/2) / 65⌋ * 65 := by
  refine ⟨by norm_num, ?_, by decide, by norm_num⟩
  norm_num [processExitOrders, getMap, updMap, ordExit]

/-- C4 (amended): for exit ratio 0 ≤ r < 0.99 the exit loop on `o :: rest`
against position map `pm` places, whenever the child's observed open quantity
`q := getMap pm o.instrument_token 0` and the scaled quantity `⌊|q| * r⌋`
are both non-zero, an order of exactly `⌊|q| * r⌋` — no lot-size
quantisation — which never exceeds `|q|`; the in-loop map entry is reduced
by the placed quantity before the remaining targets are processed. -/
theorem C4_partial_exit_qty (r : ℚ) (hr0 : 0 ≤ r) (hr : r < 0.99) (o : Order)
    (rest : List Order) (pm : List (Nat × Int)) :
    ⌊|((getMap pm o.instrument_token 0 : Int) : ℚ)| * r⌋ ≤ |getMap pm o.instrument_token 0| ∧
    processExitOrders r (o :: rest) pm =
      (if getMap pm o.instrument_token 0 = 0 then processExitOrders r rest pm
       else if ⌊|((getMap pm o.instrument_token 0 : Int) : ℚ)| * r⌋ = 0 then processExitOrders r rest pm
       else { instrument_token := o.instrument_token, transaction_type := o.transaction_type, qty := ⌊|((getMap pm o.instrument_token 0 : Int) : ℚ)| * r⌋ } ::
         processExitOrders r rest (updMap pm o.instrument_token (if getMap pm o.instrument_token 0 > 0 then getMap pm o.instrument_token 0 - ⌊|((getMap pm o.instrument_token 0 : Int) : ℚ)| * r⌋ else -(|getMap pm o.instrument_token 0| - ⌊|((getMap pm o.instrument_token 0 : Int) : ℚ)| * r⌋)))) := by
  have hr1 : r ≤ 1 := le_of_lt (lt_trans hr (by norm_num))
  have hfle : ⌊|((getMap pm o.instrument_token 0 : Int) : ℚ)| * r⌋ ≤
      |getMap pm o.instrument_token 0| := by
    calc ⌊|((getMap pm o.instrument_token 0 : Int) : ℚ)| * r⌋
        ≤ ⌊|((getMap pm o.instrument_token 0 : Int) : ℚ)|⌋ :=
          Int.floor_le_floor (mul_le_of_le_one_right (abs_nonneg _) hr1)
    _ = |getMap pm o.instrument_token 0| := by rw [← Int.cast_abs, Int.floor_intCast]
  refine ⟨hfle, ?_⟩
  by_cases hq : getMap pm o.instrument_token 0 = 0
  · rw [if_pos hq]
    simp only [processExitOrders]
    rw [if_pos hq]
  · rw [if_neg hq]
    simp only [processExitOrders]
    rw [if_neg hq]
    rw [min_eq_left hr1]
    by_cases he : ⌊|((getMap pm o.instrument_token 0 : Int) : ℚ)| * r⌋ = 0
    · rw [if_pos he, if_pos he]
    · rw [if_neg he, if_neg he]
      rw [if_neg (not_lt.mpr hfle)]
      by_cases hpos : getMap pm o.instrument_token 0 > 0
      · rw [if_pos hpos, if_pos hpos,
          max_eq_right (sub_nonneg.mpr (hfle.trans_eq (abs_of_pos hpos)))]
      · rw [if_neg hpos, if_neg hpos]

/-- Witness for C4 at ratio 1/2 with observed open quantity 100: the bound
and the step equation hold, and the call places exactly 50 (not a lot
multiple of 65, and capped by 100). -/
theorem C4_witness :
    (⌊|((getMap [((1 : Nat), (100 : Int))] ordExit.instrument_token 0 : Int) : ℚ)| * ((1 : ℚ)/2)⌋ ≤
        |getMap [((1 : Nat), (100 : Int))] ordExit.instrument_token 0| ∧
      processExitOrders ((1 : ℚ)/2) [ordExit] [(1, 100)] =
        (if getMap [((1 : Nat), (100 : Int))] ordExit.instrument_token 0 = 0 then processExitOrders ((1 : ℚ)/2) [] [(1, 100)]
         else if ⌊|((getMap [((1 : Nat), (100 : Int))] ordExit.instrument_token 0 : Int) : ℚ)| * ((1 : ℚ)/2)⌋ = 0 then processExitOrders ((1 : ℚ)/2) [] [(1, 100)]
         else { instrument_token := ordExit.instrument_token, transaction_type := ordExit.transaction_type, qty := ⌊|((getMap [((1 : Nat), (100 : Int))] ordExit.instrument_token 0 : Int) : ℚ)| * ((1 : ℚ)/2)⌋ } ::
           processExitOrders ((1 : ℚ)/2) [] (updMap [((1 : Nat), (100 : Int))] ordExit.instrument_token (if getMap [((1 : Nat), (100 : Int))] ordExit.instrument_token 0 > 0 then getMap [((1 : Nat), (100 : Int))] ordExit.instrument_token 0 - ⌊|((getMap [((1 : Nat), (100 : Int))] ordExit.instrument_token 0 : Int) : ℚ)| * ((1 : ℚ)/2)⌋ else -(|getMap [((1 : Nat), (100 : Int))] ordExit.instrument_token 0| - ⌊|((getMap [((1 : Nat), (100 : Int))] ordExit.instrument_token 0 : Int) : ℚ)| * ((1 : ℚ)/2)⌋))))) ∧
    processExitOrders ((1 : ℚ)/2) [ordExit] [(1, 100)] =
      [{ instrument_token := 1, transaction_type := "SELL", qty := 50 }] := by
  refine ⟨?_, ?_⟩
  · exact C4_partial_exit_qty ((1 : ℚ)/2) (by norm_num) (by norm_num) ordExit [] [(1, 100)]
  · norm_num [processExitOrders, getMap, updMap, ordExit]

/-- C7: the poller's detection loop hands the orchestrator only COMPLETE
orders whose ids were not in `seen_order_ids`; every COMPLETE id (old or new)
is in the updated set afterwards, and replaying the same fetched list against
the updated set yields an empty batch — no second entry. -/
theorem C7_poller_idempotent_filter (seen : List String) (orders : List Order) :
    (∀ o ∈ (detectNew seen orders).2, o.status = "COMPLETE" ∧ o.order_id ∉ seen) ∧
    (∀ x ∈ seen, x ∈ (detectNew seen orders).1) ∧
    (∀ o ∈ orders, o.status = "COMPLETE" → o.order_id ∈ (detectNew seen orders).1) ∧
    (detectNew (detectNew seen orders).1 orders).2 = [] := by
  refine ⟨?_, ?_, ?_, ?_⟩
  · intro o ho
    rcases detect_new_mem orders (seen, []) o ho with h | h
    · cases h
    · exact h
  · intro x hx
    exact detect_seen_subset orders (seen, []) x hx
  · intro o ho hc
    exact detect_complete_in_seen orders (seen, []) o ho hc
  · exact detect_replay_empty orders ((detectNew seen orders).1, [])
      (fun o ho hc => detect_complete_in_seen orders (seen, []) o ho hc)

/-- Witness for C7 on a concrete fetched list: one already-seen COMPLETE
order, one new COMPLETE order, one OPEN order. -/
theorem C7_witness :
    (∀ o ∈ (detectNew ["E1"] [ordA, ordB, ordOpen]).2,
        o.status = "COMPLETE" ∧ o.order_id ∉ ["E1"]) ∧
    (∀ x ∈ ["E1"], x ∈ (detectNew ["E1"] [ordA, ordB, ordOpen]).1) ∧
    (∀ o ∈ [ordA, ordB, ordOpen], o.status = "COMPLETE" →
        o.order_id ∈ (detectNew ["E1"] [ordA, ordB, ordOpen]).1) ∧
    (detectNew (detectNew ["E1"] [ordA, ordB, ordOpen]).1 [ordA, ordB, ordOpen]).2 = [] :=
  C7_poller_idempotent_filter ["E1"] [ordA, ordB, ordOpen]

/-- C9: every order-log record inserted by a dry-run `execute_exit` carries
no `instrument_token` and no `transaction_type` (only id, child_id, status,
qty, type), the position reconstruction skips such records, and therefore the
open-position map any child computes after the call equals the one computed
before — repeated identical `execute_exit` calls see the same positions. -/
theorem C9_dry_run_exit_records_inert (s : StrategyState) (log : List LogRec)
    (children : List ChildAcc) (r : ℚ) (orders : List Order) :
    ∃ rs : List LogRec,
      (execute_exit s log children r orders).2 = log ++ rs ∧
      (∀ rec ∈ rs, rec.instrument_token = none ∧ rec.transaction_type = none ∧
        rec.status = "simulated" ∧ rec.rtype = "exit") ∧
      ∀ cid, childPosMap ((execute_exit s log children r orders).2) cid =
        childPosMap log cid := by
  have hlog : (execute_exit s log children r orders).2 =
      children.foldl (exitStep r (aggregate_orders orders)) log := by
    unfold execute_exit
    by_cases h : (0.99 : ℚ) ≤ r
    · rw [if_pos h]
    · rw [if_neg h]
  obtain ⟨rs, h1, h2⟩ := exit_fold_recs r (aggregate_orders orders) children log
  refine ⟨rs, by rw [hlog, h1], h2, ?_⟩
  intro cid
  rw [hlog, h1]
  exact childPosMap_append_none log rs cid (fun rec hrec => (h2 rec hrec).1)

/-- Witness for C9 on a concrete call: one child exiting a logged position. -/
theorem C9_witness :
    ∃ rs : List LogRec,
      (execute_exit sActive [entryLogRec "CHILD_A" ordA 65] [childA] 1 [ordExit]).2 =
        [entryLogRec "CHILD_A" ordA 65] ++ rs ∧
      (∀ rec ∈ rs, rec.instrument_token = none ∧ rec.transaction_type = none ∧
        rec.status = "simulated" ∧ rec.rtype = "exit") ∧
      ∀ cid, childPosMap
          ((execute_exit sActive [entryLogRec "CHILD_A" ordA 65] [childA] 1 [ordExit]).2)
          cid =
        childPosMap [entryLogRec "CHILD_A" ordA 65] cid :=
  C9_dry_run_exit_records_inert sActive [entryLogRec "CHILD_A" ordA 65] [childA] 1 [ordExit]

/-- C10: when `execute_entry` runs while the strategy is active and a child
is absent from the frozen-ratio map, the child gets ratio 0.0, yielding child
quantity 0 for every order, so nothing is placed and nothing is logged for
it, and the frozen-ratio map is not extended. -/
theorem C10_missing_frozen_ratio_child_inert (s : StrategyState)
    (m : List (String × ℚ)) (c : ChildAcc) (orders : List Order)
    (pre : Option ℚ) (fb : ℚ) (children : List ChildAcc)
    (hact : s.active = true) (hfr : s.frozen_ratio = some m)
    (habs : m.find? (fun p => decide (p.1 = c.account_id)) = none) :
    entryChild s c orders = (s, []) ∧
    (∀ q : Int, childQty q 0 = 0) ∧
    (execute_entry s pre fb children orders).1.frozen_ratio = s.frozen_ratio := by
  refine ⟨?_, childQty_zero, ?_⟩
  · unfold entryChild
    rw [hact, hfr]
    have hget : getMap m c.account_id 0 = 0 := by
      unfold getMap
      rw [habs]
    show (s, entryOrders c.account_id (getMap m c.account_id 0) orders) = (s, [])
    rw [hget, entryOrders_zero]
  · rw [execute_entry_active s pre fb children orders hact]

/-- Witness for C10 at a concrete active state lacking the child. -/
theorem C10_witness :
    entryChild sActive childB [ordA] = (sActive, []) ∧
    (∀ q : Int, childQty q 0 = 0) ∧
    (execute_entry sActive (some 1000) 0 [childB] [ordA]).1.frozen_ratio =
      sActive.frozen_ratio :=
  C10_missing_frozen_ratio_child_inert sActive [("CHILD_A", 1/2)] childB [ordA]
    (some 1000) 0 [childB] rfl rfl (by decide)

/-- C5: on the first entry of a cycle every child present is written a frozen
ratio, with an entry in [0, 1] in the resulting map; while the cycle is
active `execute_entry` leaves the whole strategy state (hence every stored
ratio) unchanged, and `execute_exit` with ratio < 0.99 leaves it unchanged as
well — the map is only dropped wholesale by the cycle-ending full-exit
reset. -/
theorem C5_frozen_ratio_range_and_stability (s t u : StrategyState)
    (pre : Option ℚ) (fb : ℚ) (children : List ChildAcc) (orders0 : List Order)
    (log : List LogRec) (r : ℚ)
    (hact : s.active = false) (hfr : s.frozen_ratio = none)
    (hcap : ∀ c ∈ children, 0 ≤ c.capital)
    (ht : t.active = true) (hr : r < 0.99) :
    (∀ c ∈ children, ∃ m v,
      (execute_entry s pre fb children orders0).1.frozen_ratio = some m ∧
      (c.account_id, v) ∈ m ∧ 0 ≤ v ∧ v ≤ 1) ∧
    (execute_entry t pre fb children orders0).1 = t ∧
    (execute_exit u log children r orders0).1 = u := by
  refine ⟨?_, execute_entry_active t pre fb children orders0 ht,
    execute_exit_partial u log children r orders0 hr⟩
  intro c hc
  have hch : children ≠ [] := by
    intro he
    rw [he] at hc
    cases hc
  have hcond : ¬ (s.active = true) := by rw [hact]; simp
  have hs1act : ({ s with master_initial_margin := some (entryBase pre fb) } :
      StrategyState).active = false := hact
  have hs1inv : ∀ m, ({ s with master_initial_margin := some (entryBase pre fb) } :
      StrategyState).frozen_ratio = some m → ∀ p ∈ m, 0 ≤ p.2 ∧ p.2 ≤ 1 := by
    intro m hm
    rw [show ({ s with master_initial_margin := some (entryBase pre fb) } :
      StrategyState).frozen_ratio = s.frozen_ratio from rfl, hfr] at hm
    cases hm
  obtain ⟨g1, g2, g3, g4, g5⟩ := entry_fold_inactive (aggregate_orders orders0) children
    ({ s with master_initial_margin := some (entryBase pre fb) }) [] hs1act hs1inv hcap
  have hresne : ¬ ((children.foldl (entryStep (aggregate_orders orders0))
      ({ s with master_initial_margin := some (entryBase pre fb) }, [])).1.active = true) := by
    rw [g1]
    simp
  have hstate : (execute_entry s pre fb children orders0).1.frozen_ratio =
      (children.foldl (entryStep (aggregate_orders orders0))
        ({ s with master_initial_margin := some (entryBase pre fb) }, [])).1.frozen_ratio := by
    simp only [execute_entry]
    rw [if_neg hcond, if_neg hch, if_neg hresne]
  obtain ⟨mm, vv, hmm, hvv⟩ := g5 c hc (by simp)
  exact ⟨mm, vv, by rw [hstate]; exact hmm, hvv,
    (g3 mm hmm (c.account_id, vv) hvv).1, (g3 mm hmm (c.account_id, vv) hvv).2⟩

/-- Witness for C5: a fresh cycle with one child, then stability of an
active state under a further entry and a 50% exit. -/
theorem C5_witness :
    (∀ c ∈ [childA], ∃ m v,
      (execute_entry clearedState (some 3700000) 0 [childA] [ordA]).1.frozen_ratio
        = some m ∧
      (c.account_id, v) ∈ m ∧ 0 ≤ v ∧ v ≤ 1) ∧
    (execute_entry sActive (some 3700000) 0 [childA] [ordA]).1 = sActive ∧
    (execute_exit sActive [] [childA] ((1 : ℚ)/2) [ordA]).1 = sActive :=
  C5_frozen_ratio_range_and_stability clearedState sActive sActive (some 3700000) 0
    [childA] [ordA] [] ((1 : ℚ)/2) rfl rfl
    (by
      intro c hc
      rw [List.mem_singleton.mp hc]
      norm_num [childA])
    rfl (by norm_num)

/-- C6: fills sharing the aggregation key
(instrument_token, transaction_type, product, exchange, tradingsymbol) are
merged by `aggregate_orders` into one order whose quantity is the sum of the
fill quantities, and `execute_entry` on the k split fills is the same
computation as on the single summed fill — so every child quantity agrees. -/
theorem C6_aggregation_sums_split_fills (o0 : Order) (os : List Order)
    (hkey : ∀ o ∈ os, orderKey o = orderKey o0) :
    aggregate_orders (o0 :: os) =
      [setQty o0 (o0.quantity + (os.map Order.quantity).sum)] ∧
    ∀ (s : StrategyState) (pre : Option ℚ) (fb : ℚ) (children : List ChildAcc),
      execute_entry s pre fb children (o0 :: os) =
        execute_entry s pre fb children
          [setQty o0 (o0.quantity + (os.map Order.quantity).sum)] := by
  have h1 := aggregate_samekey o0 os hkey
  refine ⟨h1, ?_⟩
  intro s pre fb children
  apply execute_entry_congr_orders
  rw [h1, aggregate_singleton]

/-- Witness for C6: two split fills (300 + 350) of the same logical entry. -/
theorem C6_witness :
    aggregate_orders [ordA, ordB] =
      [setQty ordA (ordA.quantity + ([ordB].map Order.quantity).sum)] ∧
    ∀ (s : StrategyState) (pre : Option ℚ) (fb : ℚ) (children : List ChildAcc),
      execute_entry s pre fb children [ordA, ordB] =
        execute_entry s pre fb children
          [setQty ordA (ordA.quantity + ([ordB].map Order.quantity).sum)] :=
  C6_aggregation_sums_split_fills ordA [ordB] (by decide)

/-- C8 (amended): only an exception from the master margins fetch (the one
broker call outside any inner handler) makes the tick skip with no state
mutated; broker failures caught deeper — the positions check inside
`_master_is_flat`, per-child calls inside the replicator — are swallowed at
their site and the tick continues and may mutate state. -/
theorem C8_margin_fetch_failure_skips_tick (w : World) (children : List ChildAcc)
    (inp : TickInput) (hm : inp.margins = none) :
    process_tick w children inp = w := by
  unfold process_tick
  rw [hm]
  by_cases h : w.orch.initialized = false
  · rw [if_pos h]
  · rw [if_neg h]

/-- Witness for C8 (amended) at a concrete failing margins fetch. -/
theorem C8_witness : process_tick wBase [childA] inpMarginRaise = wBase :=
  C8_margin_fetch_failure_skips_tick wBase [childA] inpMarginRaise rfl

/-- C8 counterexample: a tick during which a broker call (the positions
fetch inside `_master_is_flat`) raises is not skipped — the baseline moves
from 1000 to 2000 and the strategy store is cleared, refuting "none of the
orchestrator's local state is mutated by that tick". -/
theorem C8_counterexample :
    inpPosRaise.positions = none ∧
    wBase.strategy.active = true ∧
    wBase.orch.last_margin = 1000 ∧
    (process_tick wBase [childA] inpPosRaise).orch.last_margin = 2000 ∧
    (2000 : ℚ) ≠ 1000 ∧
    (process_tick wBase [childA] inpPosRaise).strategy = clearedState := by
  have heval : process_tick wBase [childA] inpPosRaise =
      { orch := { wBase.orch with last_margin := 2000 },
        strategy := clearedState,
        log := [] } := by
    norm_num [process_tick, exitTick, execute_exit, exitStep, exitChild, childPosMap,
      buildPosMap, posStep, processExitOrders, getMap, updMap, aggregate_orders,
      addOrder, masterIsFlat, liveBalance, wBase, sActive, inpPosRaise, ordExit,
      childA, clearedState]
  rw [heval]
  refine ⟨rfl, rfl, rfl, rfl, by norm_num, rfl⟩

/-- C1 counterexample: a tick with an empty new-orders list, an active
strategy, and the broker reporting the master flat (beyond any grace window —
the code has none) dispatches nothing and leaves the Strategy State Store
untouched, refuting the claimed emergency close-all on such ticks. -/
theorem C1_counterexample :
    wBase.strategy.active = true ∧
    masterIsFlat inpEmptyFlat.positions = true ∧
    inpEmptyFlat.new_orders = [] ∧
    (process_tick wBase [childA] inpEmptyFlat).strategy = wBase.strategy ∧
    (process_tick wBase [childA] inpEmptyFlat).log = wBase.log :=
  ⟨rfl, rfl, rfl, rfl, rfl⟩

/-- C1 (amended): the close-all on a flat master is dispatched only from
ticks with a non-empty new-orders list whose margin delta is negative: such a
tick calls `execute_exit` with ratio 1.0 on the new orders (whose ≥ 0.99
branch clears the Strategy State Store — the orchestrator itself never
clears it), empties the instrument map and commits the margin baseline;
ticks with an empty new-orders list only update the baseline, and no grace
window exists. -/
theorem C1_flat_exit_only_with_new_orders (w : World) (children : List ChildAcc)
    (inp : TickInput) (m : ℚ × ℚ × ℚ)
    (hinit : w.orch.initialized = true)
    (hm : inp.margins = some m)
    (hne : inp.new_orders ≠ [])
    (hdelta : w.orch.last_margin - liveBalance m < 0)
    (hflat : masterIsFlat inp.positions = true) :
    (process_tick w children inp).strategy = clearedState ∧
    (process_tick w children inp).orch.instrument_map = [] ∧
    (process_tick w children inp).orch.last_margin = liveBalance m ∧
    (process_tick w children inp).log =
      (execute_exit w.strategy w.log children 1 inp.new_orders).2 := by
  have h1 : ¬ (w.orch.initialized = false) := by rw [hinit]; simp
  have h2 : ¬ (w.orch.last_margin - liveBalance m > 0) := by linarith
  have hstep : process_tick w children inp =
      exitTick w children inp (liveBalance m) (w.orch.last_margin - liveBalance m) := by
    simp only [process_tick, hm]
    rw [if_neg h1, if_neg hne, if_neg h2, if_pos hdelta]
  have hexit : exitTick w children inp (liveBalance m)
      (w.orch.last_margin - liveBalance m) =
      { orch := { w.orch with instrument_map := [], last_margin := liveBalance m },
        strategy := (execute_exit w.strategy w.log children 1 inp.new_orders).1,
        log := (execute_exit w.strategy w.log children 1 inp.new_orders).2 } := by
    simp only [exitTick]
    rw [if_pos hflat]
  rw [hstep, hexit]
  refine ⟨?_, rfl, rfl, rfl⟩
  show (execute_exit w.strategy w.log children 1 inp.new_orders).1 = clearedState
  exact execute_exit_full w.strategy w.log children 1 inp.new_orders (by norm_num)

/-- Witness for C1 (amended) at a concrete flat-master exit tick. -/
theorem C1_witness :
    (process_tick wBase [childA] inpExitFlat).strategy = clearedState ∧
    (process_tick wBase [childA] inpExitFlat).orch.instrument_map = [] ∧
    (process_tick wBase [childA] inpExitFlat).orch.last_margin =
      liveBalance (2000, 0, 0) ∧
    (process_tick wBase [childA] inpExitFlat).log =
      (execute_exit wBase.strategy wBase.log [childA] 1 inpExitFlat.new_orders).2 :=
  C1_flat_exit_only_with_new_orders wBase [childA] inpExitFlat (2000, 0, 0) rfl rfl
    (by decide) (by norm_num [wBase, liveBalance]) rfl

end TradeRep
